import Mathlib

/-!
Verification of the pystv ballot counter (`election.py`, `ballot.py`).

The development shallowly embeds the counting engine: Python `decimal`
arithmetic at context precision 5 with ROUND_HALF_EVEN (used for all ballot
weights and vote totals), ballots, the per-round tabulation loop, the
last-place/tie-break elimination policy, and the driving `while` loop.

Machine decimals are represented by a coefficient/exponent pair; every
arithmetic operation rounds the exact result to 5 significant digits, exactly
as the `decimal` module does under `getcontext().prec = 5` (nonnegative
operands only, which is the only case the program produces).  The rational
value of a decimal is given by `val`; comparisons in the program (`==`, `<`
on `Decimal`) are value comparisons, which we implement on the
coefficient/exponent pairs so that they evaluate inside the kernel.
-/

set_option maxRecDepth 400000

/-- Machine decimal: value `c * 10 ^ e`.  Mirrors a nonnegative Python
`Decimal` given by coefficient and exponent. -/
structure Dec where
  c : ℕ
  e : ℤ
deriving DecidableEq

/-- Rational value denoted by a machine decimal. -/
def val (x : Dec) : ℚ := (x.c : ℚ) * (10 : ℚ) ^ x.e

/-- Number of base-10 digits, computed with structural fuel so that it
reduces in the kernel (`digitsAux c c` since the recursion depth is at most
`c`). -/
def digitsAux : ℕ → ℕ → ℕ
  | 0, _ => 0
  | fuel + 1, c => if c = 0 then 0 else digitsAux fuel (c / 10) + 1

/-- Number of base-10 digits of a natural number (0 for 0). -/
def digitCount (c : ℕ) : ℕ := digitsAux c c

/-- Round an exact coefficient/exponent pair to 5 significant digits using
ROUND_HALF_EVEN, as the `decimal` context with `prec = 5` does after every
arithmetic operation. -/
def roundTo5 (c : ℕ) (e : ℤ) : Dec :=
  if c < 100000 then ⟨c, e⟩
  else
    let d := digitCount c - 5
    let sh := 10 ^ d
    let q := c / sh
    let r := c % sh
    let q' := if 2 * r > sh ∨ (2 * r = sh ∧ q % 2 = 1) then q + 1 else q
    ⟨q', e + d⟩

/-- Python `Decimal.__add__` at precision 5: align exponents, add exactly,
round the coefficient to 5 significant digits. -/
def decAdd (x y : Dec) : Dec :=
  let m := min x.e y.e
  roundTo5 (x.c * 10 ^ (x.e - m).toNat + y.c * 10 ^ (y.e - m).toNat) m

/-- Half-even adjustment of a truncated quotient `q` with remainder `r`
against divisor `t2`. -/
def halfEvenAdj (q r t2 : ℕ) : ℕ :=
  if 2 * r > t2 ∨ (2 * r = t2 ∧ q % 2 = 1) then q + 1 else q

/-- Python `Decimal.__truediv__` at precision 5: the correctly rounded
(ROUND_HALF_EVEN) 5-significant-digit quotient.  Division by a zero decimal
raises `DivisionByZero` in Python (the trap is enabled by default), which the
embedding renders as `none`. -/
def decDiv (x y : Dec) : Option Dec :=
  if y.c = 0 then none
  else if x.c = 0 then some ⟨0, 0⟩
  else
    let k : ℤ := (digitCount y.c : ℤ) + 4 - (digitCount x.c : ℤ)
    let t1 := x.c * 10 ^ k.toNat
    let t2 := y.c * 10 ^ (-k).toNat
    let q := t1 / t2
    if q < 10000 then
      some ⟨halfEvenAdj (t1 * 10 / t2) (t1 * 10 % t2) t2, x.e - y.e - (k + 1)⟩
    else
      some ⟨halfEvenAdj q (t1 % t2) t2, x.e - y.e - k⟩

/-- The Python integer `n` coerced to `Decimal` (as in `Decimal(len(...))`
and the integer `0` that `sum` starts from). -/
def decOfNat (n : ℕ) : Dec := ⟨n, 0⟩

/-- Python literal `Decimal("0.0")`, the per-candidate starting total. -/
def decZero : Dec := ⟨0, -1⟩

/-- Python literal `Decimal("1.0")`, the weight of every regular ballot. -/
def decOne : Dec := ⟨10, -1⟩

/-- Python `sum(list_of_decimals)`: left fold of decimal addition starting
from the integer 0. -/
def decSum (l : List Dec) : Dec := l.foldl decAdd (decOfNat 0)

/-- Value-level order on machine decimals, computed on coefficients after
aligning exponents so that it reduces in the kernel.  Python `Decimal`
comparison is comparison of the denoted values. -/
def decLe (x y : Dec) : Prop :=
  x.c * 10 ^ (x.e - min x.e y.e).toNat ≤ y.c * 10 ^ (y.e - min x.e y.e).toNat

instance (x y : Dec) : Decidable (decLe x y) := by
  unfold decLe; infer_instance

/-- Value-level equality test on machine decimals (Python `==` on
`Decimal`), as a Boolean so it can drive `List.filter`. -/
def decEqB (x y : Dec) : Bool :=
  x.c * 10 ^ (x.e - min x.e y.e).toNat == y.c * 10 ^ (y.e - min x.e y.e).toNat

/-- Ballot record from `ballot.py`: submission timestamp (opaque), weight,
and the ranking as a list of candidate indices in descending preference
order. -/
structure Ballot where
  timestamp : String
  weight : Dec
  rankings : List ℕ
deriving DecidableEq

/-- First still-active candidate on a ballot: the inner
`for candidate in ballot.rankings: if candidate in remaining_candidates`
scan of the counting loop.  `none` means the ballot is exhausted this
round. -/
def firstActive (remaining : List ℕ) (b : Ballot) : Option ℕ :=
  b.rankings.find? (fun c => remaining.contains c)

/-- The dict comprehension `{x: Decimal("0.0") for x in remaining_candidates}`:
every active candidate starts the round at 0.0, no other key is present. -/
def initVotes (remaining : List ℕ) : ℕ → Option Dec :=
  fun c => if remaining.contains c then some decZero else none

/-- Processing one ballot inside the round counting loop: the first active
candidate on the ballot (if any) receives the ballot's weight via
`votes[candidate] += ballot.weight`. -/
def tallyBallot (remaining : List ℕ) (votes : ℕ → Option Dec) (b : Ballot) :
    ℕ → Option Dec :=
  match firstActive remaining b with
  | none => votes
  | some cand => fun x =>
      if x = cand then (votes x).map (fun v => decAdd v b.weight) else votes x

/-- One round of tabulation: the `for ballot in ballots` loop producing the
`votes` dict. -/
def countVotes (remaining : List ℕ) (ballots : List Ballot) : ℕ → Option Dec :=
  ballots.foldl (tallyBallot remaining) (initVotes remaining)

/-- Lookup in the `votes` dict; the default is never reached because every
key the program looks up is an active candidate. -/
def votesD (votes : ℕ → Option Dec) (c : ℕ) : Dec :=
  (votes c).getD decZero

/-- Python `sorted(votes.items(), key=lambda pair: pair[1], reverse=True)`:
a stable sort of the (candidate, total) pairs into descending order of
total.  Any stable sort produces the same list; we use insertion sort, whose
structural recursion evaluates in the kernel. -/
def sortDesc (items : List (ℕ × Dec)) : List (ℕ × Dec) :=
  List.insertionSort (fun p q => decLe q.2 p.2) items

/-- The expression `votes_desc[-1][1]`: the vote total of the last entry of
the descending-sorted list (the program only evaluates it when at least one
candidate is active, so the default is never reached). -/
def leastOf (vdesc : List (ℕ × Dec)) : Dec :=
  match vdesc.getLast? with
  | some p => p.2
  | none => decZero

/-- Observable outcome of one counting round: the active set at the start of
the round, the `votes.items()` association list, the computed
`last_place_candidates`, and the candidate removed at the end of the round
(`none` for the terminal unresolved tie). -/
structure RoundRec where
  remaining : List ℕ
  tally : List (ℕ × Dec)
  lastPlace : List ℕ
  eliminated : Option ℕ
deriving DecidableEq

/-- One iteration of the `while len(remaining_candidates) > seats` loop
body, up to and including the choice of the candidate to eliminate.  `rng k`
is the k-th draw of the seeded generator, consumed only by
`rng.choice(last_place_candidates)`. -/
def roundStep (seats : ℕ) (ballots : List Ballot) (breakTies : Bool)
    (rng : ℕ → ℕ) (remaining : List ℕ) (k : ℕ) : RoundRec :=
  let votes := countVotes remaining ballots
  let items := remaining.map (fun c => (c, votesD votes c))
  let least := leastOf (sortDesc items)
  let lastPlace := remaining.filter (fun x => decEqB (votesD votes x) least)
  let elim : Option ℕ :=
    if 1 < lastPlace.length then
      if seats + 1 < remaining.length ∨ breakTies = true then
        some (lastPlace.getD (rng k % lastPlace.length) 0)
      else
        none
    else
      some (lastPlace.headD 0)
  ⟨remaining, items, lastPlace, elim⟩

/-- Index of the next unused random draw after a round: `rng.choice` is
called exactly when the round had a last-place tie that was resolved by
chance. -/
def nextK (r : RoundRec) (k : ℕ) : ℕ :=
  if 1 < r.lastPlace.length then k + 1 else k

/-- The `while len(remaining_candidates) > seats` loop.  `fuel` bounds the
number of iterations; `none` means the fuel ran out (the termination theorem
shows fuel `remaining.length` always suffices).  Returns the list of round
records together with the final remaining-candidate set. -/
def runLoop (seats : ℕ) (ballots : List Ballot) (breakTies : Bool)
    (rng : ℕ → ℕ) : ℕ → List ℕ → ℕ → Option (List RoundRec × List ℕ)
  | 0, remaining, _ =>
      if remaining.length ≤ seats then some ([], remaining) else none
  | fuel + 1, remaining, k =>
      if remaining.length ≤ seats then some ([], remaining)
      else
        let step := roundStep seats ballots breakTies rng remaining k
        match step.eliminated with
        | none => some ([step], remaining)
        | some x =>
            (runLoop seats ballots breakTies rng fuel (remaining.erase x)
                (nextK step k)).map
              (fun r => (step :: r.1, r.2))

/-- Initial active set:
`set(range(len(candidates))) - set(to_eliminate)` (iterated in increasing
index order, as CPython does for small-integer sets). -/
def activeInit (numCands : ℕ) (toElim : List ℕ) : List ℕ :=
  (List.range numCands).filter (fun c => !toElim.contains c)

/-- The election driver: preemptive eliminations applied to the full
candidate range, then the counting loop, with fuel set to the size of the
initial active set. -/
def runElection (numCands seats : ℕ) (ballots : List Ballot)
    (toElim : List ℕ) (breakTies : Bool) (rng : ℕ → ℕ) :
    Option (List RoundRec × List ℕ) :=
  runLoop seats ballots breakTies rng (activeInit numCands toElim).length
    (activeInit numCands toElim) 0

/-- Modelled from the spec: the program's only entropy source is
`random.Random(seed)`, a deterministic pseudo-random generator; the Mersenne
Twister stream behind `rng.choice` is abstracted as a deterministic function
of the seed and the draw index. -/
def rngOfSeed (seed : ℕ) : ℕ → ℕ := fun k => seed + k

/-- The driver as run by the program: the tie-break generator is seeded once
with `seed` and used for the whole run. -/
def runElectionSeeded (numCands seats : ℕ) (ballots : List Ballot)
    (toElim : List ℕ) (breakTies : Bool) (seed : ℕ) :
    Option (List RoundRec × List ℕ) :=
  runElection numCands seats ballots toElim breakTies (rngOfSeed seed)

/-- The regular-ballot mass
`real_mass = sum([x.weight for x in ballots if len(x.rankings) > 0])`. -/
def realMass (ballots : List Ballot) : Dec :=
  decSum ((ballots.filter (fun b => !b.rankings.isEmpty)).map Ballot.weight)

/-- Supervote ("exec") weight normalization:
`exec_weight = real_mass / Decimal(len(exec_ballots))`, then every exec
ballot's weight is set to `exec_weight`.  Python raises `DivisionByZero`
when there are no exec ballots, rendered as `none`. -/
def normalizeSuper (superB : List Ballot) (mass : Dec) : Option (List Ballot) :=
  match decDiv mass (decOfNat superB.length) with
  | none => none
  | some w => some (superB.map (fun b => { b with weight := w }))

/-- The full pipeline when `--exec-votes` is supplied: compute the regular
mass, normalize the supervote pool, concatenate the pools, run the
election.  A failure in normalization aborts before any round is counted. -/
def runWithExec (regular superB : List Ballot) (numCands seats : ℕ)
    (toElim : List ℕ) (breakTies : Bool) (rng : ℕ → ℕ) :
    Option (List RoundRec × List ℕ) :=
  match normalizeSuper superB (realMass regular) with
  | none => none
  | some bs => runElection numCands seats (regular ++ bs) toElim breakTies rng

/-- Exact-arithmetic mirror of `tallyBallot`: the same first-active-choice
update performed on exact rational weights instead of 5-digit decimals. -/
def tallyQ (remaining : List ℕ) (v : ℕ → ℚ) (b : Ballot) : ℕ → ℚ :=
  match firstActive remaining b with
  | none => v
  | some cand => fun x => if x = cand then v x + val b.weight else v x

/-- Exact-arithmetic mirror of `countVotes`, used to state the conservation
property free of rounding. -/
def countVotesQ (remaining : List ℕ) (ballots : List Ballot) : ℕ → ℚ :=
  ballots.foldl (tallyQ remaining) (fun _ => 0)

/-- Value of an optional vote total (0 for an absent key). -/
def valO (o : Option Dec) : ℚ := (o.map val).getD 0

/-- The active set recorded by the round after `rs`, or the final active set
if `rs` is empty. -/
def chainNext (rs : List RoundRec) (fin : List ℕ) : List ℕ :=
  match rs with
  | [] => fin
  | r :: _ => r.remaining

/-- Round-to-round evolution of the active set along a trace: every
eliminating round removes exactly one (present) candidate, and a terminal
unresolved-tie round is the last round and leaves the active set
unchanged. -/
def chainOk : List RoundRec → List ℕ → Prop
  | [], _ => True
  | r :: rest, fin =>
      match r.eliminated with
      | some x =>
          x ∈ r.remaining ∧
          chainNext rest fin = r.remaining.erase x ∧
          (chainNext rest fin).length + 1 = r.remaining.length ∧
          chainOk rest fin
      | none => rest = [] ∧ fin = r.remaining

/-! ## Value bridge lemmas -/

theorem val_align (x : Dec) (m : ℤ) (hm : m ≤ x.e) :
    val x = ((x.c * 10 ^ (x.e - m).toNat : ℕ) : ℚ) * (10 : ℚ) ^ m := by
  unfold val
  push_cast
  rw [← zpow_natCast (10 : ℚ) (x.e - m).toNat, Int.toNat_of_nonneg (by omega)]
  rw [mul_assoc, ← zpow_add₀ (by norm_num : (10 : ℚ) ≠ 0), sub_add_cancel]

theorem decLe_iff (x y : Dec) : decLe x y ↔ val x ≤ val y := by
  have hx := val_align x (min x.e y.e) (min_le_left _ _)
  have hy := val_align y (min x.e y.e) (min_le_right _ _)
  have hpos : (0 : ℚ) < (10 : ℚ) ^ (min x.e y.e) := by positivity
  constructor
  · intro h
    rw [hx, hy]
    exact mul_le_mul_of_nonneg_right (by exact_mod_cast h) hpos.le
  · intro h
    rw [hx, hy] at h
    have := le_of_mul_le_mul_right h hpos
    exact_mod_cast this

theorem decEqB_iff (x y : Dec) : decEqB x y = true ↔ val x = val y := by
  have hx := val_align x (min x.e y.e) (min_le_left _ _)
  have hy := val_align y (min x.e y.e) (min_le_right _ _)
  have hne : ((10 : ℚ) ^ (min x.e y.e)) ≠ 0 := by positivity
  unfold decEqB
  rw [beq_iff_eq]
  constructor
  · intro h
    rw [hx, hy, h]
  · intro h
    rw [hx, hy] at h
    have := mul_right_cancel₀ hne h
    exact_mod_cast this

theorem decEqB_self (x : Dec) : decEqB x x = true := by
  simp [decEqB_iff]

/-! ## Round tabulation: accumulation along the ballot list -/

theorem countVotes_acc (remaining : List ℕ) (c : ℕ) :
    ∀ (ballots : List Ballot) (v : ℕ → Option Dec) (d : Dec), v c = some d →
      (ballots.foldl (tallyBallot remaining) v) c =
        some (((ballots.filter
            (fun b => firstActive remaining b == some c)).map Ballot.weight).foldl
          decAdd d) := by
  intro ballots
  induction ballots with
  | nil => intro v d hv; simpa using hv
  | cons b bs ih =>
    intro v d hv
    simp only [List.foldl_cons, List.filter_cons]
    cases hfa : firstActive remaining b with
    | none =>
        have hstep : tallyBallot remaining v b = v := by
          unfold tallyBallot; rw [hfa]
        rw [hstep]
        simpa using ih v d hv
    | some cand =>
        by_cases hc : cand = c
        · have hstep : (tallyBallot remaining v b) c = some (decAdd d b.weight) := by
            unfold tallyBallot; rw [hfa]; simp [hc, hv]
          simpa [hc] using ih _ _ hstep
        · have hstep : (tallyBallot remaining v b) c = some d := by
            unfold tallyBallot; rw [hfa]; simp [Ne.symm hc, hv]
          simpa [hc] using ih _ _ hstep

/-! ## Domain of the votes dict -/

theorem tallyBallot_isSome (remaining : List ℕ) (v : ℕ → Option Dec)
    (b : Ballot) (x : ℕ) :
    ((tallyBallot remaining v b) x).isSome = (v x).isSome := by
  unfold tallyBallot
  cases hfa : firstActive remaining b with
  | none => rfl
  | some cand =>
      by_cases hx : x = cand
      · simp [hx]
      · simp [hx]

theorem countVotes_isSome (remaining : List ℕ) (ballots : List Ballot) (c : ℕ) :
    (countVotes remaining ballots c).isSome = true ↔ c ∈ remaining := by
  have key : ∀ (bs : List Ballot) (v : ℕ → Option Dec),
      ((bs.foldl (tallyBallot remaining) v) c).isSome = (v c).isSome := by
    intro bs
    induction bs with
    | nil => intro v; rfl
    | cons b bs ih => intro v; rw [List.foldl_cons, ih, tallyBallot_isSome]
  unfold countVotes
  rw [key]
  unfold initVotes
  by_cases hc : c ∈ remaining
  · simp [List.elem_iff.mpr hc, List.contains, hc]
  · simp [List.contains, hc, fun h => hc (List.elem_iff.mp h)]

/-! ## The last-place value is the minimum -/

theorem decLe_refl (x : Dec) : decLe x x := (decLe_iff x x).mpr le_rfl

theorem sortDesc_sorted (items : List (ℕ × Dec)) :
    List.Sorted (fun p q : ℕ × Dec => decLe q.2 p.2) (sortDesc items) := by
  letI : IsTotal (ℕ × Dec) (fun p q : ℕ × Dec => decLe q.2 p.2) :=
    ⟨fun a b => by
      rcases le_total (val b.2) (val a.2) with h | h
      · exact Or.inl ((decLe_iff _ _).mpr h)
      · exact Or.inr ((decLe_iff _ _).mpr h)⟩
  letI : IsTrans (ℕ × Dec) (fun p q : ℕ × Dec => decLe q.2 p.2) :=
    ⟨fun a b c hab hbc =>
      (decLe_iff _ _).mpr
        (le_trans ((decLe_iff _ _).mp hbc) ((decLe_iff _ _).mp hab))⟩
  exact List.sorted_insertionSort _ items

theorem leastOf_mem (l : List (ℕ × Dec)) (hl : l ≠ []) :
    ∃ p ∈ l, leastOf l = p.2 := by
  cases hgl : l.getLast? with
  | none => exact absurd (List.getLast?_eq_none_iff.mp hgl) hl
  | some p =>
      refine ⟨p, List.mem_of_getLast?_eq_some hgl, ?_⟩
      unfold leastOf
      rw [hgl]

theorem sorted_leastOf_min (l : List (ℕ × Dec))
    (hs : List.Sorted (fun p q : ℕ × Dec => decLe q.2 p.2) l) :
    ∀ p ∈ l, decLe (leastOf l) p.2 := by
  induction l with
  | nil => intro p hp; cases hp
  | cons a t ih =>
      intro p hp
      cases t with
      | nil =>
          have hpa : p = a := by simpa using hp
          subst hpa
          unfold leastOf
          simp only [List.getLast?_singleton]
          exact decLe_refl _
      | cons b t' =>
          have hrest : List.Sorted (fun p q : ℕ × Dec => decLe q.2 p.2) (b :: t') :=
            (List.sorted_cons.mp hs).2
          have hhead : ∀ q ∈ b :: t', decLe q.2 a.2 := (List.sorted_cons.mp hs).1
          have hleq : leastOf (a :: b :: t') = leastOf (b :: t') := by
            unfold leastOf
            rw [List.getLast?_cons_cons]
          rw [hleq]
          rcases List.mem_cons.mp hp with h | h
          · subst h
            obtain ⟨q, hq, hlq⟩ := leastOf_mem (b :: t') (by simp)
            rw [hlq]
            exact hhead q hq
          · exact ih hrest p h

/-! ## Step-level characterization of the elimination policy -/

theorem roundStep_remaining (seats : ℕ) (ballots : List Ballot) (flag : Bool)
    (rng : ℕ → ℕ) (remaining : List ℕ) (k : ℕ) :
    (roundStep seats ballots flag rng remaining k).remaining = remaining := rfl

theorem roundStep_tally (seats : ℕ) (ballots : List Ballot) (flag : Bool)
    (rng : ℕ → ℕ) (remaining : List ℕ) (k : ℕ) :
    (roundStep seats ballots flag rng remaining k).tally =
      remaining.map (fun c => (c, votesD (countVotes remaining ballots) c)) := rfl

theorem roundStep_lastPlace (seats : ℕ) (ballots : List Ballot) (flag : Bool)
    (rng : ℕ → ℕ) (remaining : List ℕ) (k : ℕ) :
    (roundStep seats ballots flag rng remaining k).lastPlace =
      remaining.filter (fun x =>
        decEqB (votesD (countVotes remaining ballots) x)
          (leastOf (sortDesc (remaining.map
            (fun c => (c, votesD (countVotes remaining ballots) c)))))) := rfl

theorem roundStep_eliminated (seats : ℕ) (ballots : List Ballot) (flag : Bool)
    (rng : ℕ → ℕ) (remaining : List ℕ) (k : ℕ) :
    (roundStep seats ballots flag rng remaining k).eliminated =
      (if 1 < (roundStep seats ballots flag rng remaining k).lastPlace.length then
        if seats + 1 < remaining.length ∨ flag = true then
          some ((roundStep seats ballots flag rng remaining k).lastPlace.getD
            (rng k % (roundStep seats ballots flag rng remaining k).lastPlace.length) 0)
        else none
      else
        some ((roundStep seats ballots flag rng remaining k).lastPlace.headD 0)) := rfl

theorem filterMin_char (remaining : List ℕ) (votes : ℕ → Option Dec)
    (hne : remaining ≠ []) :
    (∀ x, x ∈ remaining.filter (fun x =>
        decEqB (votesD votes x)
          (leastOf (sortDesc (remaining.map (fun c => (c, votesD votes c)))))) ↔
      x ∈ remaining ∧ ∀ y ∈ remaining,
        val (votesD votes x) ≤ val (votesD votes y)) ∧
    remaining.filter (fun x =>
        decEqB (votesD votes x)
          (leastOf (sortDesc (remaining.map (fun c => (c, votesD votes c)))))) ≠ [] := by
  set items := remaining.map (fun c => (c, votesD votes c)) with hitems
  set least := leastOf (sortDesc items) with hleast
  have hperm : List.Perm (sortDesc items) items := List.perm_insertionSort _ _
  have hsorted := sortDesc_sorted items
  have hsne : sortDesc items ≠ [] := by
    intro h
    have hlen := hperm.length_eq
    rw [h, hitems] at hlen
    simp only [List.length_nil, List.length_map] at hlen
    exact hne (List.length_eq_zero.mp hlen.symm)
  have hmin : ∀ y ∈ remaining, val least ≤ val (votesD votes y) := by
    intro y hy
    have h1 : (y, votesD votes y) ∈ items := by
      rw [hitems]; exact List.mem_map_of_mem _ hy
    have h2 := hperm.mem_iff.mpr h1
    have h3 := sorted_leastOf_min _ hsorted _ h2
    rw [hleast]
    exact (decLe_iff (leastOf (sortDesc items)) ((y, votesD votes y)).2).mp h3
  have hatt : ∃ c0 ∈ remaining, least = votesD votes c0 := by
    obtain ⟨p, hp, hpl⟩ := leastOf_mem _ hsne
    have hp2 : p ∈ items := hperm.mem_iff.mp hp
    rw [hitems] at hp2
    obtain ⟨c0, hc0, hfc⟩ := List.mem_map.mp hp2
    exact ⟨c0, hc0, by rw [hleast, hpl, ← hfc]⟩
  have hchar : ∀ x, x ∈ remaining.filter (fun x => decEqB (votesD votes x) least) ↔
      x ∈ remaining ∧ ∀ y ∈ remaining,
        val (votesD votes x) ≤ val (votesD votes y) := by
    intro x
    rw [List.mem_filter]
    constructor
    · rintro ⟨hxr, hxe⟩
      refine ⟨hxr, ?_⟩
      intro y hy
      rw [(decEqB_iff _ _).mp hxe]
      exact hmin y hy
    · rintro ⟨hxr, hxmin⟩
      refine ⟨hxr, ?_⟩
      rw [decEqB_iff]
      obtain ⟨c0, hc0, hlc⟩ := hatt
      refine le_antisymm ?_ (hmin x hxr)
      rw [hlc]
      exact hxmin c0 hc0
  refine ⟨hchar, ?_⟩
  obtain ⟨c0, hc0, hlc⟩ := hatt
  have hc0mem : c0 ∈ remaining.filter (fun x => decEqB (votesD votes x) least) := by
    rw [hchar c0]
    refine ⟨hc0, ?_⟩
    intro y hy
    rw [← hlc]
    exact hmin y hy
  exact List.ne_nil_of_mem hc0mem

theorem step_lastPlace_char (seats : ℕ) (ballots : List Ballot) (flag : Bool)
    (rng : ℕ → ℕ) (remaining : List ℕ) (k : ℕ) (hne : remaining ≠ []) :
    (∀ x, x ∈ (roundStep seats ballots flag rng remaining k).lastPlace ↔
      x ∈ remaining ∧ ∀ y ∈ remaining,
        val (votesD (countVotes remaining ballots) x) ≤
          val (votesD (countVotes remaining ballots) y)) ∧
    (roundStep seats ballots flag rng remaining k).lastPlace ≠ [] := by
  rw [roundStep_lastPlace]
  exact filterMin_char remaining (countVotes remaining ballots) hne

theorem step_elim_single (seats : ℕ) (ballots : List Ballot) (flag : Bool)
    (rng : ℕ → ℕ) (remaining : List ℕ) (k : ℕ) (x : ℕ)
    (h : (roundStep seats ballots flag rng remaining k).lastPlace = [x]) :
    (roundStep seats ballots flag rng remaining k).eliminated = some x := by
  rw [roundStep_eliminated, h]
  simp

theorem step_elim_random (seats : ℕ) (ballots : List Ballot) (flag : Bool)
    (rng : ℕ → ℕ) (remaining : List ℕ) (k : ℕ)
    (hlen : 1 < (roundStep seats ballots flag rng remaining k).lastPlace.length)
    (hcond : seats + 1 < remaining.length ∨ flag = true) :
    ∃ x, (roundStep seats ballots flag rng remaining k).eliminated = some x ∧
      x ∈ (roundStep seats ballots flag rng remaining k).lastPlace := by
  rw [roundStep_eliminated, if_pos hlen, if_pos hcond]
  have hidx : rng k % (roundStep seats ballots flag rng remaining k).lastPlace.length <
      (roundStep seats ballots flag rng remaining k).lastPlace.length :=
    Nat.mod_lt _ (by omega)
  refine ⟨_, rfl, ?_⟩
  rw [List.getD_eq_getElem?_getD, List.getElem?_eq_getElem hidx, Option.getD_some]
  exact List.getElem_mem hidx

theorem step_elim_tie (seats : ℕ) (ballots : List Ballot) (flag : Bool)
    (rng : ℕ → ℕ) (remaining : List ℕ) (k : ℕ)
    (hlen : 1 < (roundStep seats ballots flag rng remaining k).lastPlace.length)
    (hcond : ¬(seats + 1 < remaining.length ∨ flag = true)) :
    (roundStep seats ballots flag rng remaining k).eliminated = none := by
  rw [roundStep_eliminated, if_pos hlen, if_neg hcond]

theorem step_lastPlace_sub (seats : ℕ) (ballots : List Ballot) (flag : Bool)
    (rng : ℕ → ℕ) (remaining : List ℕ) (k : ℕ) (z : ℕ)
    (hz : z ∈ (roundStep seats ballots flag rng remaining k).lastPlace) :
    z ∈ remaining := by
  rw [roundStep_lastPlace] at hz
  exact List.mem_of_mem_filter hz

theorem step_elim_mem (seats : ℕ) (ballots : List Ballot) (flag : Bool)
    (rng : ℕ → ℕ) (remaining : List ℕ) (k : ℕ)
    (hlp : (roundStep seats ballots flag rng remaining k).lastPlace ≠ []) (x : ℕ)
    (hx : (roundStep seats ballots flag rng remaining k).eliminated = some x) :
    x ∈ remaining := by
  rw [roundStep_eliminated] at hx
  by_cases hlen : 1 < (roundStep seats ballots flag rng remaining k).lastPlace.length
  · rw [if_pos hlen] at hx
    by_cases hcond : seats + 1 < remaining.length ∨ flag = true
    · rw [if_pos hcond] at hx
      have hidx : rng k % (roundStep seats ballots flag rng remaining k).lastPlace.length <
          (roundStep seats ballots flag rng remaining k).lastPlace.length :=
        Nat.mod_lt _ (by omega)
      have hxv := Option.some.inj hx
      refine step_lastPlace_sub seats ballots flag rng remaining k x ?_
      rw [← hxv, List.getD_eq_getElem?_getD, List.getElem?_eq_getElem hidx,
        Option.getD_some]
      exact List.getElem_mem hidx
    · rw [if_neg hcond] at hx
      cases hx
  · rw [if_neg hlen] at hx
    have hxv := Option.some.inj hx
    refine step_lastPlace_sub seats ballots flag rng remaining k x ?_
    rw [← hxv, List.headD_eq_head?_getD, List.head?_eq_head hlp, Option.getD_some]
    exact List.head_mem hlp

/-! ## Loop-level invariants -/

theorem runLoop_nonempty (remaining : List ℕ) (seats : ℕ)
    (h : ¬remaining.length ≤ seats) : remaining ≠ [] := by
  intro hnil
  rw [hnil] at h
  exact h (Nat.zero_le _)

theorem runLoop_chainNext (seats : ℕ) (ballots : List Ballot) (flag : Bool)
    (rng : ℕ → ℕ) :
    ∀ (fuel : ℕ) (remaining : List ℕ) (k : ℕ) (t : List RoundRec) (fin : List ℕ),
      runLoop seats ballots flag rng fuel remaining k = some (t, fin) →
      chainNext t fin = remaining := by
  intro fuel
  cases fuel with
  | zero =>
      intro remaining k t fin h
      unfold runLoop at h
      by_cases hle : remaining.length ≤ seats
      · rw [if_pos hle] at h
        obtain ⟨h1, h2⟩ := Prod.mk.injEq _ _ _ _ ▸ Option.some.inj h
        rw [← h1, ← h2]
        rfl
      · rw [if_neg hle] at h
        cases h
  | succ fuel =>
      intro remaining k t fin h
      unfold runLoop at h
      by_cases hle : remaining.length ≤ seats
      · rw [if_pos hle] at h
        obtain ⟨h1, h2⟩ := Prod.mk.injEq _ _ _ _ ▸ Option.some.inj h
        rw [← h1, ← h2]
        rfl
      · rw [if_neg hle] at h
        simp only [] at h
        cases helim : (roundStep seats ballots flag rng remaining k).eliminated with
        | none =>
            rw [helim] at h
            simp only [] at h
            obtain ⟨h1, h2⟩ := Prod.mk.injEq _ _ _ _ ▸ Option.some.inj h
            rw [← h1]
            rfl
        | some x =>
            rw [helim] at h
            simp only [Option.map_eq_some'] at h
            obtain ⟨⟨t', fin'⟩, _, heq⟩ := h
            obtain ⟨h1, h2⟩ := Prod.mk.injEq _ _ _ _ ▸ heq
            rw [← h1]
            rfl

theorem runLoop_le_inv (seats : ℕ) (ballots : List Ballot) (flag : Bool)
    (rng : ℕ → ℕ) (fuel : ℕ) (remaining : List ℕ) (k : ℕ) (t : List RoundRec)
    (fin : List ℕ)
    (h : runLoop seats ballots flag rng fuel remaining k = some (t, fin))
    (hle : remaining.length ≤ seats) : t = [] ∧ fin = remaining := by
  cases fuel with
  | zero =>
      unfold runLoop at h
      rw [if_pos hle] at h
      obtain ⟨h1, h2⟩ := Prod.mk.injEq _ _ _ _ ▸ Option.some.inj h
      exact ⟨h1.symm, h2.symm⟩
  | succ fuel =>
      unfold runLoop at h
      rw [if_pos hle] at h
      obtain ⟨h1, h2⟩ := Prod.mk.injEq _ _ _ _ ▸ Option.some.inj h
      exact ⟨h1.symm, h2.symm⟩

theorem runLoop_succ_inv (seats : ℕ) (ballots : List Ballot) (flag : Bool)
    (rng : ℕ → ℕ) (fuel : ℕ) (remaining : List ℕ) (k : ℕ) (t : List RoundRec)
    (fin : List ℕ)
    (h : runLoop seats ballots flag rng (fuel + 1) remaining k = some (t, fin))
    (hle : ¬remaining.length ≤ seats) :
    (∃ x t', (roundStep seats ballots flag rng remaining k).eliminated = some x ∧
        runLoop seats ballots flag rng fuel (remaining.erase x)
          (nextK (roundStep seats ballots flag rng remaining k) k) = some (t', fin) ∧
        t = roundStep seats ballots flag rng remaining k :: t') ∨
    ((roundStep seats ballots flag rng remaining k).eliminated = none ∧
        t = [roundStep seats ballots flag rng remaining k] ∧ fin = remaining) := by
  unfold runLoop at h
  rw [if_neg hle] at h
  simp only [] at h
  cases helim : (roundStep seats ballots flag rng remaining k).eliminated with
  | none =>
      rw [helim] at h
      simp only [] at h
      obtain ⟨h1, h2⟩ := Prod.mk.injEq _ _ _ _ ▸ Option.some.inj h
      exact Or.inr ⟨rfl, h1.symm, h2.symm⟩
  | some x =>
      rw [helim] at h
      simp only [Option.map_eq_some'] at h
      obtain ⟨⟨t', fin'⟩, hrl, heq⟩ := h
      obtain ⟨h1, h2⟩ := Prod.mk.injEq _ _ _ _ ▸ heq
      exact Or.inl ⟨x, t', rfl, h2 ▸ hrl, h1.symm⟩

theorem runLoop_rec_spec (seats : ℕ) (ballots : List Ballot) (flag : Bool)
    (rng : ℕ → ℕ) :
    ∀ (fuel : ℕ) (remaining : List ℕ) (k : ℕ) (t : List RoundRec) (fin : List ℕ),
      runLoop seats ballots flag rng fuel remaining k = some (t, fin) →
      ∀ r ∈ t, ∃ rem' k', r = roundStep seats ballots flag rng rem' k' ∧
        seats < rem'.length ∧ (∀ c ∈ rem', c ∈ remaining) := by
  intro fuel
  induction fuel with
  | zero =>
      intro remaining k t fin h r hr
      by_cases hle : remaining.length ≤ seats
      · obtain ⟨rfl, _⟩ := runLoop_le_inv _ _ _ _ _ _ _ _ _ h hle
        cases hr
      · unfold runLoop at h
        rw [if_neg hle] at h
        cases h
  | succ fuel ih =>
      intro remaining k t fin h r hr
      by_cases hle : remaining.length ≤ seats
      · obtain ⟨rfl, _⟩ := runLoop_le_inv _ _ _ _ _ _ _ _ _ h hle
        cases hr
      · rcases runLoop_succ_inv _ _ _ _ _ _ _ _ _ h hle with
          ⟨x, t', _, hrl, rfl⟩ | ⟨_, rfl, _⟩
        · rcases List.mem_cons.mp hr with rfl | hr'
          · exact ⟨remaining, k, rfl, by omega, fun c hc => hc⟩
          · obtain ⟨rem', k', hr2, hlt, hsub⟩ := ih _ _ _ _ hrl r hr'
            exact ⟨rem', k', hr2, hlt,
              fun c hc => List.mem_of_mem_erase (hsub c hc)⟩
        · have hr1 : r = roundStep seats ballots flag rng remaining k := by
            simpa using hr
          exact ⟨remaining, k, hr1, by omega, fun c hc => hc⟩

theorem runLoop_total (seats : ℕ) (ballots : List Ballot) (flag : Bool)
    (rng : ℕ → ℕ) :
    ∀ (fuel : ℕ) (remaining : List ℕ) (k : ℕ),
      remaining.length ≤ seats + fuel →
      ∃ t fin, runLoop seats ballots flag rng fuel remaining k = some (t, fin) ∧
        t.length ≤ remaining.length - seats := by
  intro fuel
  induction fuel with
  | zero =>
      intro remaining k hfuel
      have hle : remaining.length ≤ seats := by omega
      refine ⟨[], remaining, ?_, by simp⟩
      unfold runLoop
      rw [if_pos hle]
  | succ fuel ih =>
      intro remaining k hfuel
      by_cases hle : remaining.length ≤ seats
      · refine ⟨[], remaining, ?_, by simp⟩
        unfold runLoop
        rw [if_pos hle]
      · have hne : remaining ≠ [] := runLoop_nonempty remaining seats hle
        have hlp := (step_lastPlace_char seats ballots flag rng remaining k hne).2
        cases helim : (roundStep seats ballots flag rng remaining k).eliminated with
        | none =>
            refine ⟨[roundStep seats ballots flag rng remaining k], remaining, ?_, ?_⟩
            · unfold runLoop
              rw [if_neg hle]
              simp only [helim]
            · simp only [List.length_singleton]
              omega
        | some x =>
            have hxmem : x ∈ remaining :=
              step_elim_mem seats ballots flag rng remaining k hlp x helim
            have herase : (remaining.erase x).length = remaining.length - 1 :=
              List.length_erase_of_mem hxmem
            obtain ⟨t', fin, hrl, hbound⟩ :=
              ih (remaining.erase x)
                (nextK (roundStep seats ballots flag rng remaining k) k)
                (by omega)
            refine ⟨roundStep seats ballots flag rng remaining k :: t', fin, ?_, ?_⟩
            · unfold runLoop
              rw [if_neg hle]
              simp only [helim, hrl, Option.map_some']
            · simp only [List.length_cons]
              omega

theorem runLoop_chainOk (seats : ℕ) (ballots : List Ballot) (flag : Bool)
    (rng : ℕ → ℕ) :
    ∀ (fuel : ℕ) (remaining : List ℕ) (k : ℕ) (t : List RoundRec) (fin : List ℕ),
      runLoop seats ballots flag rng fuel remaining k = some (t, fin) →
      chainOk t fin := by
  intro fuel
  induction fuel with
  | zero =>
      intro remaining k t fin h
      by_cases hle : remaining.length ≤ seats
      · obtain ⟨rfl, _⟩ := runLoop_le_inv _ _ _ _ _ _ _ _ _ h hle
        trivial
      · unfold runLoop at h
        rw [if_neg hle] at h
        cases h
  | succ fuel ih =>
      intro remaining k t fin h
      by_cases hle : remaining.length ≤ seats
      · obtain ⟨rfl, _⟩ := runLoop_le_inv _ _ _ _ _ _ _ _ _ h hle
        trivial
      · have hne : remaining ≠ [] := runLoop_nonempty remaining seats hle
        have hlp := (step_lastPlace_char seats ballots flag rng remaining k hne).2
        rcases runLoop_succ_inv _ _ _ _ _ _ _ _ _ h hle with
          ⟨x, t', helim, hrl, rfl⟩ | ⟨helim, rfl, rfl⟩
        · have hxmem : x ∈ remaining :=
            step_elim_mem seats ballots flag rng remaining k hlp x helim
          have hcn : chainNext t' fin = remaining.erase x :=
            runLoop_chainNext seats ballots flag rng fuel (remaining.erase x) _ t' fin hrl
          have herase : (remaining.erase x).length = remaining.length - 1 :=
            List.length_erase_of_mem hxmem
          have hpos : 0 < remaining.length := List.length_pos.mpr hne
          unfold chainOk
          rw [helim]
          refine ⟨hxmem, ?_, ?_, ih _ _ _ _ hrl⟩
          · rw [hcn, roundStep_remaining]
          · rw [hcn, roundStep_remaining, herase]
            omega
        · unfold chainOk
          rw [helim]
          exact ⟨rfl, rfl⟩

/-! ## Exact-arithmetic conservation -/

theorem sum_update (c : ℕ) (w : ℚ) :
    ∀ (remaining : List ℕ) (v : ℕ → ℚ), remaining.Nodup → c ∈ remaining →
      (remaining.map (fun x => if x = c then v x + w else v x)).sum =
        (remaining.map v).sum + w := by
  intro remaining
  induction remaining with
  | nil => intro v _ hc; cases hc
  | cons a t ih =>
      intro v hnd hc
      rcases List.mem_cons.mp hc with rfl | hct
      · have hnotin : List.map (fun x => if x = c then v x + w else v x) t =
            List.map v t := by
          refine List.map_congr_left ?_
          intro x hx
          have hxc : x ≠ c := fun h => (List.nodup_cons.mp hnd).1 (h ▸ hx)
          simp [hxc]
        simp only [List.map_cons, List.sum_cons, eq_self_iff_true, if_true, hnotin]
        ring
      · have hne : a ≠ c := by
          intro hac
          exact (List.nodup_cons.mp hnd).1 (hac ▸ hct)
        simp only [List.map_cons, List.sum_cons, if_neg hne,
          ih v (List.nodup_cons.mp hnd).2 hct]
        ring

theorem firstActive_mem (remaining : List ℕ) (b : Ballot) (cand : ℕ)
    (h : firstActive remaining b = some cand) : cand ∈ remaining := by
  unfold firstActive at h
  have := List.find?_some h
  exact List.elem_iff.mp this

theorem conservationQ_aux (remaining : List ℕ) (hnd : remaining.Nodup) :
    ∀ (ballots : List Ballot) (v : ℕ → ℚ),
      (remaining.map (ballots.foldl (tallyQ remaining) v)).sum +
        ((ballots.filter (fun b => (firstActive remaining b).isNone)).map
          (fun b => val b.weight)).sum =
      (remaining.map v).sum + (ballots.map (fun b => val b.weight)).sum := by
  intro ballots
  induction ballots with
  | nil => intro v; simp
  | cons b bs ih =>
      intro v
      cases hfa : firstActive remaining b with
      | none =>
          have hstep : tallyQ remaining v b = v := by
            unfold tallyQ; rw [hfa]
          have hfil : List.filter (fun b => (firstActive remaining b).isNone) (b :: bs) =
              b :: List.filter (fun b => (firstActive remaining b).isNone) bs := by
            simp [List.filter_cons, hfa]
          rw [List.foldl_cons, hstep, hfil, List.map_cons, List.sum_cons,
            List.map_cons, List.sum_cons]
          have hih := ih v
          linarith
      | some cand =>
          have hcand : cand ∈ remaining := firstActive_mem remaining b cand hfa
          have hstep : tallyQ remaining v b =
              fun x => if x = cand then v x + val b.weight else v x := by
            unfold tallyQ; rw [hfa]
          have hfil : List.filter (fun b => (firstActive remaining b).isNone) (b :: bs) =
              List.filter (fun b => (firstActive remaining b).isNone) bs := by
            simp [List.filter_cons, hfa]
          rw [List.foldl_cons, hstep, hfil, List.map_cons, List.sum_cons]
          have hupd := sum_update cand (val b.weight) remaining v hnd hcand
          have hih := ih (fun x => if x = cand then v x + val b.weight else v x)
          rw [hih, hupd]
          ring

/-! ## Claim theorems -/

/-- C1: in every counting round, each ballot's weight is added to the vote
total of the first candidate in its ranking sequence that is still active,
and to no other candidate; a ballot with no active ranked candidate
(exhausted, including empty) contributes to no total; every active
candidate's total starts the round at `Decimal("0.0")`.  Formally: an active
candidate's computed total is exactly the decimal accumulation, starting
from zero, of the weights of precisely those ballots whose first active
choice is that candidate. -/
theorem counting_first_active_gets_weight (remaining : List ℕ)
    (ballots : List Ballot) (c : ℕ) (hc : c ∈ remaining) :
    countVotes remaining ballots c =
      some (((ballots.filter (fun b => firstActive remaining b == some c)).map
        Ballot.weight).foldl decAdd decZero) := by
  unfold countVotes
  refine countVotes_acc remaining c ballots (initVotes remaining) decZero ?_
  unfold initVotes
  simp [List.contains, List.elem_iff, hc]

theorem counting_first_active_gets_weight_witness :
    (1 ∈ [0, 1, 2] : Prop) ∧
    countVotes [0, 1, 2]
        [⟨"", decOne, [1, 0]⟩, ⟨"", decOne, [3]⟩, ⟨"", decOne, []⟩,
          ⟨"", ⟨5, -1⟩, [2, 1]⟩] 1 =
      some ((([⟨"", decOne, [1, 0]⟩, ⟨"", decOne, [3]⟩, ⟨"", decOne, []⟩,
          (⟨"", ⟨5, -1⟩, [2, 1]⟩ : Ballot)].filter
        (fun b => firstActive [0, 1, 2] b == some 1)).map
          Ballot.weight).foldl decAdd decZero) :=
  ⟨by decide,
    counting_first_active_gets_weight [0, 1, 2] _ 1 (by decide)⟩

/-- C5: when supervote normalization is requested with an empty supervote
pool (`K = 0`), the computation fails (Python's `DivisionByZero` from
`real_mass / Decimal(0)`, rendered as `none`) before any counting round
executes: the whole pipeline yields no partial results. -/
theorem zero_supervotes_abort (regular : List Ballot) (numCands seats : ℕ)
    (toElim : List ℕ) (flag : Bool) (rng : ℕ → ℕ) :
    normalizeSuper [] (realMass regular) = none ∧
    runWithExec regular [] numCands seats toElim flag rng = none := by
  constructor
  · rfl
  · rfl

/-- C6 amended: when `seats` is at least the size of the initial active set,
the counting loop runs zero rounds and the driver reports the whole initial
active set as winners (pass-through) instead of refusing to run. -/
theorem seats_pass_through (numCands seats : ℕ) (ballots : List Ballot)
    (toElim : List ℕ) (flag : Bool) (rng : ℕ → ℕ)
    (h : (activeInit numCands toElim).length ≤ seats) :
    runElection numCands seats ballots toElim flag rng =
      some ([], activeInit numCands toElim) := by
  unfold runElection
  cases hfe : (activeInit numCands toElim).length with
  | zero =>
      unfold runLoop
      rw [hfe] at h
      rw [if_pos (by omega)]
  | succ n =>
      unfold runLoop
      rw [hfe] at h
      rw [if_pos (by omega)]

/-- C6 counterexample: with 1 candidate and 2 seats the driver does not
signal a configuration error; it completes with zero rounds and produces the
winner set `[0]` (a decided outcome, since `1 ≤ 2`). -/
theorem seats_config_error_cex :
    runElection 1 2 [] [] false (fun _ => 0) = some ([], [0]) ∧
    ([0] : List ℕ).length ≤ 2 := by
  constructor
  · decide
  · decide

theorem seats_pass_through_witness :
    ((activeInit 1 [] ).length ≤ 2 : Prop) ∧
    runElection 1 2 [⟨"", decOne, [0]⟩] [] false (fun _ => 0) =
      some ([], activeInit 1 []) :=
  ⟨by decide, seats_pass_through 1 2 [⟨"", decOne, [0]⟩] [] false (fun _ => 0)
    (by decide)⟩

/-- C7: the run is a pure function of the ballots, the seat count, the
preemptive eliminations, the tie-break flag and the seed: two runs with
identical inputs and the same seed produce the identical round-by-round
trace — the same vote totals, the same last-place sets, the same eliminated
candidates (including every tie-break draw) and the same final active set. -/
theorem run_reproducible (numCands seats₁ seats₂ : ℕ)
    (ballots₁ ballots₂ : List Ballot) (toElim₁ toElim₂ : List ℕ) (flag : Bool)
    (seed₁ seed₂ : ℕ) (hs : seats₁ = seats₂) (hb : ballots₁ = ballots₂)
    (he : toElim₁ = toElim₂) (hseed : seed₁ = seed₂) :
    runElectionSeeded numCands seats₁ ballots₁ toElim₁ flag seed₁ =
      runElectionSeeded numCands seats₂ ballots₂ toElim₂ flag seed₂ := by
  rw [hs, hb, he, hseed]

theorem run_reproducible_witness :
    (1 : ℕ) = 1 ∧
    runElectionSeeded 3 1 [⟨"", decOne, [0]⟩, ⟨"", decOne, [1]⟩] [2] false 42 =
      runElectionSeeded 3 1 [⟨"", decOne, [0]⟩, ⟨"", decOne, [1]⟩] [2] false 42 :=
  ⟨rfl, run_reproducible 3 1 1 _ _ [2] [2] false 42 42 rfl rfl rfl rfl⟩

/-- C10: for every finite ballot set, seat count and configuration, the
counting loop terminates: fuel equal to the initial active-candidate count
always suffices (each round removes exactly one candidate or is a terminal
tie), and the number of recorded rounds is at most the initial
active-candidate count minus the seat count. -/
theorem counting_loop_terminates (numCands seats : ℕ) (ballots : List Ballot)
    (toElim : List ℕ) (flag : Bool) (rng : ℕ → ℕ) :
    ∃ t fin, runElection numCands seats ballots toElim flag rng = some (t, fin) ∧
      t.length ≤ (activeInit numCands toElim).length - seats :=
  runLoop_total seats ballots flag rng (activeInit numCands toElim).length
    (activeInit numCands toElim) 0 (by omega)

/-- C8: along every run, each counting round removes exactly one (present)
candidate from the active set — the next round's active set is the erase and
its size is exactly one less — except a terminal unresolved-tie round, which
is the last round and leaves the active set unchanged. -/
theorem active_set_shrinks_one_per_round (numCands seats : ℕ)
    (ballots : List Ballot) (toElim : List ℕ) (flag : Bool) (rng : ℕ → ℕ)
    (t : List RoundRec) (fin : List ℕ)
    (hrun : runElection numCands seats ballots toElim flag rng = some (t, fin)) :
    chainOk t fin := by
  unfold runElection at hrun
  exact runLoop_chainOk seats ballots flag rng _ _ _ _ _ hrun

theorem active_set_shrinks_one_per_round_witness :
    runElection 2 1 [⟨"", decOne, [0]⟩, ⟨"", decOne, [1]⟩] [] false (fun _ => 0) =
      some ([⟨[0, 1], [(0, ⟨10, -1⟩), (1, ⟨10, -1⟩)], [0, 1], none⟩], [0, 1]) ∧
    chainOk [⟨[0, 1], [(0, ⟨10, -1⟩), (1, ⟨10, -1⟩)], [0, 1], none⟩] [0, 1] :=
  ⟨by decide,
    active_set_shrinks_one_per_round 2 1
      [⟨"", decOne, [0]⟩, ⟨"", decOne, [1]⟩] [] false (fun _ => 0) _ _
      (by decide)⟩

/-- C9: a preemptively eliminated candidate never appears in any round's
vote-total mapping: in every recorded round, the keys of the `votes.items()`
association list are exactly the round's active candidates, the `votes` dict
holds an entry exactly for the active candidates, and no active candidate is
one of the preemptively eliminated indices. -/
theorem votes_domain_excludes_preeliminated (numCands seats : ℕ)
    (ballots : List Ballot) (toElim : List ℕ) (flag : Bool) (rng : ℕ → ℕ)
    (t : List RoundRec) (fin : List ℕ)
    (hrun : runElection numCands seats ballots toElim flag rng = some (t, fin)) :
    ∀ r ∈ t,
      r.tally.map Prod.fst = r.remaining ∧
      (∀ c, (countVotes r.remaining ballots c).isSome = true ↔ c ∈ r.remaining) ∧
      (∀ c ∈ r.remaining, c ∉ toElim) := by
  intro r hr
  unfold runElection at hrun
  obtain ⟨rem', k', rfl, _, hsub⟩ :=
    runLoop_rec_spec seats ballots flag rng _ _ _ _ _ hrun r hr
  refine ⟨?_, ?_, ?_⟩
  · rw [roundStep_tally, roundStep_remaining, List.map_map]
    show List.map (fun c => c) rem' = rem'
    exact List.map_id' rem'
  · intro c
    rw [roundStep_remaining]
    exact countVotes_isSome rem' ballots c
  · intro c hcr hcel
    have hcr' : c ∈ rem' := by
      rw [roundStep_remaining] at hcr
      exact hcr
    have hcinit : c ∈ activeInit numCands toElim := hsub c hcr'
    unfold activeInit at hcinit
    have h2 : toElim.contains c = false := by
      simpa using (List.mem_filter.mp hcinit).2
    have h3 : toElim.contains c = true := List.elem_iff.mpr hcel
    rw [h2] at h3
    cases h3

theorem votes_domain_excludes_preeliminated_witness :
    runElection 3 1 [⟨"", decOne, [0]⟩, ⟨"", decOne, [0]⟩, ⟨"", decOne, [1]⟩]
        [2] false (fun _ => 0) =
      some ([⟨[0, 1], [(0, ⟨20, -1⟩), (1, ⟨10, -1⟩)], [1], some 1⟩], [0]) ∧
    ∀ r ∈ [(⟨[0, 1], [(0, ⟨20, -1⟩), (1, ⟨10, -1⟩)], [1], some 1⟩ : RoundRec)],
      r.tally.map Prod.fst = r.remaining ∧
      (∀ c, (countVotes r.remaining
          [⟨"", decOne, [0]⟩, ⟨"", decOne, [0]⟩, ⟨"", decOne, [1]⟩] c).isSome =
          true ↔ c ∈ r.remaining) ∧
      (∀ c ∈ r.remaining, c ∉ ([2] : List ℕ)) :=
  ⟨by decide,
    votes_domain_excludes_preeliminated 3 1
      [⟨"", decOne, [0]⟩, ⟨"", decOne, [0]⟩, ⟨"", decOne, [1]⟩] [2] false
      (fun _ => 0)
      [⟨[0, 1], [(0, ⟨20, -1⟩), (1, ⟨10, -1⟩)], [1], some 1⟩] [0]
      (by decide)⟩

/-- C2: in every round, `last_place_candidates` is exactly the set of active
candidates whose vote total equals the round's minimum (exact equality of
the fixed-precision decimal values, phrased as being a minimizer).  A
singleton loser set is eliminated outright; a larger loser set is resolved
by a draw from the seeded generator (one of its members is eliminated) when
more than `seats + 1` candidates remain or the tie-break flag is set, and
otherwise the round eliminates no one (terminal unresolved tie). -/
theorem round_loser_set_and_tie_policy (numCands seats : ℕ)
    (ballots : List Ballot) (toElim : List ℕ) (flag : Bool) (rng : ℕ → ℕ)
    (t : List RoundRec) (fin : List ℕ)
    (hrun : runElection numCands seats ballots toElim flag rng = some (t, fin)) :
    ∀ r ∈ t,
      (∀ x, x ∈ r.lastPlace ↔ x ∈ r.remaining ∧ ∀ y ∈ r.remaining,
        val (votesD (countVotes r.remaining ballots) x) ≤
          val (votesD (countVotes r.remaining ballots) y)) ∧
      (∀ x, r.lastPlace = [x] → r.eliminated = some x) ∧
      (1 < r.lastPlace.length → (seats + 1 < r.remaining.length ∨ flag = true) →
        ∃ x, r.eliminated = some x ∧ x ∈ r.lastPlace) ∧
      (1 < r.lastPlace.length →
        ¬(seats + 1 < r.remaining.length ∨ flag = true) →
        r.eliminated = none) := by
  intro r hr
  unfold runElection at hrun
  obtain ⟨rem', k', rfl, hlt, _⟩ :=
    runLoop_rec_spec seats ballots flag rng _ _ _ _ _ hrun r hr
  have hne : rem' ≠ [] := by
    intro h
    rw [h] at hlt
    simp at hlt
  refine ⟨?_, ?_, ?_, ?_⟩
  · intro x
    rw [roundStep_remaining]
    exact (step_lastPlace_char seats ballots flag rng rem' k' hne).1 x
  · intro x hx
    exact step_elim_single seats ballots flag rng rem' k' x hx
  · intro hlen hcond
    rw [roundStep_remaining] at hcond
    exact step_elim_random seats ballots flag rng rem' k' hlen hcond
  · intro hlen hcond
    rw [roundStep_remaining] at hcond
    exact step_elim_tie seats ballots flag rng rem' k' hlen hcond

theorem round_loser_set_and_tie_policy_witness :
    runElection 2 1 [⟨"", decOne, [0]⟩] [] false (fun _ => 0) =
      some ([⟨[0, 1], [(0, ⟨10, -1⟩), (1, ⟨0, -1⟩)], [1], some 1⟩], [0]) ∧
    ∀ r ∈ [(⟨[0, 1], [(0, ⟨10, -1⟩), (1, ⟨0, -1⟩)], [1], some 1⟩ : RoundRec)],
      (∀ x, x ∈ r.lastPlace ↔ x ∈ r.remaining ∧ ∀ y ∈ r.remaining,
        val (votesD (countVotes r.remaining [⟨"", decOne, [0]⟩]) x) ≤
          val (votesD (countVotes r.remaining [⟨"", decOne, [0]⟩]) y)) ∧
      (∀ x, r.lastPlace = [x] → r.eliminated = some x) ∧
      (1 < r.lastPlace.length → (1 + 1 < r.remaining.length ∨ false = true) →
        ∃ x, r.eliminated = some x ∧ x ∈ r.lastPlace) ∧
      (1 < r.lastPlace.length →
        ¬(1 + 1 < r.remaining.length ∨ false = true) →
        r.eliminated = none) :=
  ⟨by decide,
    round_loser_set_and_tie_policy 2 1 [⟨"", decOne, [0]⟩] [] false
      (fun _ => 0)
      [⟨[0, 1], [(0, ⟨10, -1⟩), (1, ⟨0, -1⟩)], [1], some 1⟩] [0]
      (by decide)⟩

theorem decDiv_isSome (x y : Dec) (hy : y.c ≠ 0) : ∃ w, decDiv x y = some w := by
  unfold decDiv
  rw [if_neg hy]
  by_cases hx : x.c = 0
  · rw [if_pos hx]
    exact ⟨_, rfl⟩
  · rw [if_neg hx]
    simp only []
    split
    · exact ⟨_, rfl⟩
    · exact ⟨_, rfl⟩

/-- C4 amended: for any nonempty supervote pool (`K ≥ 1`) and any mass `M`,
normalization computes the single quotient `w = M / K` (rounded to 5
significant digits) and assigns that identical weight to every supervote
ballot; in exact arithmetic `K * (M / K) = M`, so the weights are designed
to sum to the regular mass — but the fixed-precision decimal sum of the `K`
weights is not guaranteed to land within one final-digit unit of `M` (see
the counterexample). -/
theorem supervote_weights_identical (superB : List Ballot) (mass : Dec)
    (hne : superB ≠ []) :
    ∃ w bs, decDiv mass (decOfNat superB.length) = some w ∧
      normalizeSuper superB mass = some bs ∧
      (∀ b ∈ bs, b.weight = w) ∧
      (superB.length : ℚ) * (val mass / (superB.length : ℚ)) = val mass := by
  have hlen : superB.length ≠ 0 := fun h => hne (List.length_eq_zero.mp h)
  obtain ⟨w, hw⟩ := decDiv_isSome mass (decOfNat superB.length) hlen
  refine ⟨w, superB.map (fun b => { b with weight := w }), hw, ?_, ?_, ?_⟩
  · unfold normalizeSuper
    rw [hw]
  · intro b hb
    obtain ⟨b0, _, rfl⟩ := List.mem_map.mp hb
    rfl
  · rw [mul_comm, div_mul_cancel₀]
    exact Nat.cast_ne_zero.mpr hlen

theorem supervote_weights_identical_witness :
    ([⟨"", decOfNat 0, [0]⟩] : List Ballot) ≠ [] ∧
    (∃ w bs, decDiv decOne (decOfNat ([⟨"", decOfNat 0, [0]⟩] : List Ballot).length) =
        some w ∧
      normalizeSuper [⟨"", decOfNat 0, [0]⟩] decOne = some bs ∧
      (∀ b ∈ bs, b.weight = w) ∧
      (([⟨"", decOfNat 0, [0]⟩] : List Ballot).length : ℚ) *
        (val decOne / (([⟨"", decOfNat 0, [0]⟩] : List Ballot).length : ℚ)) =
        val decOne) :=
  ⟨by decide, supervote_weights_identical [⟨"", decOfNat 0, [0]⟩] decOne (by decide)⟩

/-- C3 amended: conservation holds for the exact-arithmetic tabulation: for
every round, the rational sum of the per-candidate totals computed without
rounding, plus the total weight of the ballots exhausted that round, equals
the total weight of all ballots.  (The fixed-precision decimal totals the
program computes can violate the exact equality; see the counterexample.) -/
theorem conservation_exact (remaining : List ℕ) (ballots : List Ballot)
    (hnd : remaining.Nodup) :
    (remaining.map (countVotesQ remaining ballots)).sum +
      ((ballots.filter (fun b => (firstActive remaining b).isNone)).map
        (fun b => val b.weight)).sum =
    (ballots.map (fun b => val b.weight)).sum := by
  have h := conservationQ_aux remaining hnd ballots (fun _ => 0)
  simpa [countVotesQ] using h

theorem conservation_exact_witness :
    ([0, 1] : List ℕ).Nodup ∧
    (([0, 1] : List ℕ).map
        (countVotesQ [0, 1] [⟨"", decOne, [1, 0]⟩, ⟨"", decOne, []⟩])).sum +
      (([⟨"", decOne, [1, 0]⟩, (⟨"", decOne, []⟩ : Ballot)].filter
        (fun b => (firstActive [0, 1] b).isNone)).map
          (fun b => val b.weight)).sum =
      (([⟨"", decOne, [1, 0]⟩, (⟨"", decOne, []⟩ : Ballot)]).map
        (fun b => val b.weight)).sum :=
  ⟨by decide,
    conservation_exact [0, 1] [⟨"", decOne, [1, 0]⟩, ⟨"", decOne, []⟩]
      (by decide)⟩

/-- C3 counterexample: with the active set `[0]` and seven ballots of weight
`0.42857` (the exec weight produced by mass 3 and 7 supervotes) all ranking
candidate 0, the decimal total for candidate 0 is `3.0001`, while the exact
total weight of the ballots is `2.99999`: the per-round sum of computed vote
totals plus exhausted weight (here zero) does not equal the total ballot
weight. -/
theorem conservation_decimal_cex :
    ¬ ((([0] : List ℕ).map (fun c =>
          valO (countVotes [0] (List.replicate 7 ⟨"", ⟨42857, -5⟩, [0]⟩) c))).sum +
        (((List.replicate 7 (⟨"", ⟨42857, -5⟩, [0]⟩ : Ballot)).filter
          (fun b => (firstActive [0] b).isNone)).map (fun b => val b.weight)).sum =
      ((List.replicate 7 (⟨"", ⟨42857, -5⟩, [0]⟩ : Ballot)).map
        (fun b => val b.weight)).sum) := by
  intro h
  have hcv : countVotes [0] (List.replicate 7 (⟨"", ⟨42857, -5⟩, [0]⟩ : Ballot)) 0 =
      some ⟨30001, -4⟩ := by decide
  have hfil : (List.replicate 7 (⟨"", ⟨42857, -5⟩, [0]⟩ : Ballot)).filter
      (fun b => (firstActive [0] b).isNone) = [] := by decide
  rw [hfil] at h
  simp only [List.map_cons, List.map_nil, List.sum_cons, List.sum_nil, hcv,
    List.map_replicate, List.sum_replicate, valO, Option.map_some',
    Option.getD_some] at h
  rw [nsmul_eq_mul] at h
  norm_num [val] at h

theorem decSum_chunk (a : Dec) (m n : ℕ) (w : Dec) :
    List.foldl decAdd a (List.replicate (m + n) w) =
      List.foldl decAdd (List.foldl decAdd a (List.replicate m w))
        (List.replicate n w) := by
  rw [List.replicate_add, List.foldl_append]

theorem c4sum1 :
    List.foldl decAdd (decOfNat 0) (List.replicate 100 ⟨42857, -5⟩) =
      ⟨42890, -3⟩ := by decide

theorem c4sum2 :
    List.foldl decAdd (⟨42890, -3⟩ : Dec) (List.replicate 100 ⟨42857, -5⟩) =
      ⟨85790, -3⟩ := by decide

theorem c4sum3 :
    List.foldl decAdd (⟨85790, -3⟩ : Dec) (List.replicate 100 ⟨42857, -5⟩) =
      ⟨12876, -2⟩ := by decide

theorem c4sum4 :
    List.foldl decAdd (⟨12876, -2⟩ : Dec) (List.replicate 100 ⟨42857, -5⟩) =
      ⟨17176, -2⟩ := by decide

theorem c4sum5 :
    List.foldl decAdd (⟨17176, -2⟩ : Dec) (List.replicate 100 ⟨42857, -5⟩) =
      ⟨21476, -2⟩ := by decide

theorem c4sum6 :
    List.foldl decAdd (⟨21476, -2⟩ : Dec) (List.replicate 100 ⟨42857, -5⟩) =
      ⟨25776, -2⟩ := by decide

theorem c4sum7 :
    List.foldl decAdd (⟨25776, -2⟩ : Dec) (List.replicate 100 ⟨42857, -5⟩) =
      ⟨30076, -2⟩ := by decide

theorem c4sum700 :
    decSum (List.replicate 700 (⟨42857, -5⟩ : Dec)) = ⟨30076, -2⟩ := by
  unfold decSum
  rw [show (700 : ℕ) = 100 + (100 + (100 + (100 + (100 + (100 + 100))))) from rfl]
  rw [decSum_chunk, c4sum1, decSum_chunk, c4sum2, decSum_chunk, c4sum3,
    decSum_chunk, c4sum4, decSum_chunk, c4sum5, decSum_chunk, c4sum6, c4sum7]

/-- C4 counterexample: with regular mass `M = 300` and `K = 700` supervote
ballots, every supervote ballot is assigned the identical rounded weight
`0.42857`, but the fixed-precision decimal sum of the 700 weights is
`300.76`: it misses `M` by `0.76`, which is 76 units in the last of the five
significant digits of `M = 300.00` — far beyond fixed-precision rounding. -/
theorem supervote_mass_cex :
    normalizeSuper (List.replicate 700 ⟨"", decOfNat 0, [0]⟩) ⟨300, 0⟩ =
      some (List.replicate 700 ⟨"", ⟨42857, -5⟩, [0]⟩) ∧
    ¬ |val (decSum ((List.replicate 700 (⟨"", ⟨42857, -5⟩, [0]⟩ : Ballot)).map
        Ballot.weight)) - val ⟨300, 0⟩| ≤ 1 / 100 := by
  constructor
  · unfold normalizeSuper
    rw [show decDiv ⟨300, 0⟩ (decOfNat (List.replicate 700
        (⟨"", decOfNat 0, [0]⟩ : Ballot)).length) = some ⟨42857, -5⟩ from by decide]
    simp only []
    rw [List.map_replicate]
  · rw [List.map_replicate]
    rw [show Ballot.weight (⟨"", ⟨42857, -5⟩, [0]⟩ : Ballot) = ⟨42857, -5⟩ from rfl]
    rw [c4sum700]
    norm_num [val]
    rw [abs_of_pos] <;> norm_num
